import Mathlib

/-!
# LLVM-Canon: the command-line driver and the canonicalizer

Part I embeds `src/src/Tool.cpp` (`readModule`, `main`) and the constructor of
`src/include/IRCanonicalizer.h`.  The LLVM library and the file system are the
environment: they are the fields of `World`.  `main` is written with explicit
state passing: it returns the exit status together with the log of the calls
it made, in program order.
-/

namespace LLVMCanon

/-! ## Part I: the driver (Tool.cpp) -/

/-- The four flag members of `IRCanonicalizer` (IRCanonicalizer.h, lines 34-44). -/
structure IRCanonicalizer where
  PreserveOrder : Bool
  RenameAll : Bool
  FoldPreoutputs : Bool
  ReorderOperands : Bool
deriving DecidableEq, Repr

/-- The constructor `IRCanonicalizer(bool PreserveOrder, bool RenameAll,
bool FoldPreoutputs, bool ReorderOperands)` with its member initialiser list
(IRCanonicalizer.h, lines 23-26). -/
def IRCanonicalizer.new (PreserveOrder RenameAll FoldPreoutputs ReorderOperands : Bool) :
    IRCanonicalizer :=
  { PreserveOrder := PreserveOrder
    RenameAll := RenameAll
    FoldPreoutputs := FoldPreoutputs
    ReorderOperands := ReorderOperands }

/-- The values of the `cl::opt` globals of Tool.cpp (lines 28-47) once
`cl::ParseCommandLineOptions` has returned: `-f`, `-o`, `-preserve-order`,
`-rename-all`, `-fold-all`, `-reorder-operands`. -/
structure CommandLine where
  InputFilename : String
  OutputFilename : String
  PreserveOrder : Bool
  RenameAll : Bool
  FoldPreoutputs : Bool
  ReorderOperands : Bool
deriving DecidableEq, Repr

/-- An LLVM module as the driver sees it: the ordered list of its functions
(what `for (auto &Function : *Module)` iterates over) and the rest of the
module, which the loop does not touch. -/
structure Module (F : Type) where
  rest : String
  functions : List F
deriving DecidableEq, Repr

/-- The environment of `main`: the LLVM entry points it calls and the file
system.
* `parseIRFile` is `none` when LLVM returns a null module;
* `runOnFunction` is `IRCanonicalizer::runOnFunction`: the function after the
  in-place mutation and the returned `bool`;
* `verifyModule` is `true` when the module is broken (LLVM's convention);
* `openOutput` is the value of the `std::error_code` set by the
  `raw_fd_ostream` constructor, `0` meaning no error. -/
structure World (F : Type) where
  parseIRFile : String → Option (Module F)
  runOnFunction : IRCanonicalizer → F → F × Bool
  verifyModule : Module F → Bool
  openOutput : String → Nat

/-- One entry of the call log of `main`. -/
inductive Event (F : Type) where
  | diagPrint : Event F
  | construct (C : IRCanonicalizer) : Event F
  | runOnFunction (C : IRCanonicalizer) (f : F) (changed : Bool) : Event F
  | verifyModule (M : Module F) (broken : Bool) : Event F
  | openOutput (name : String) (ec : Nat) : Event F
  | errMessage (ec : Nat) : Event F
  | print (M : Module F) : Event F
  | close : Event F
deriving DecidableEq, Repr

/-- What a run of `main` yields: the value it returns and its call log. -/
structure Outcome (F : Type) where
  exit : Int
  trace : List (Event F)
deriving DecidableEq, Repr

/-- `readModule` (Tool.cpp, lines 16-25): parse the file; on a null module
print the diagnostic; return the module either way. -/
def readModule {F : Type} (w : World F) (Name : String) :
    Option (Module F) × List (Event F) :=
  match w.parseIRFile Name with
  | none => (none, [Event.diagPrint])
  | some M => (some M, [])

/-- The loop `for (auto &Function : *Module) Canonicalizer.runOnFunction(Function);`
(Tool.cpp, lines 69-71): the functions after mutation and the log of calls.
The returned `bool` of each call is dropped by the source; the log keeps it. -/
def runOnFunctions {F : Type} (w : World F) (C : IRCanonicalizer) :
    List F → List F × List (Event F)
  | [] => ([], [])
  | f :: fs =>
    let r := w.runOnFunction C f
    let rs := runOnFunctions w C fs
    (r.1 :: rs.1, Event.runOnFunction C f r.2 :: rs.2)

/-- The canonicalizer that `main` constructs (Tool.cpp, lines 66-67). -/
def mainCanonicalizer (cl : CommandLine) : IRCanonicalizer :=
  IRCanonicalizer.new cl.PreserveOrder cl.RenameAll cl.FoldPreoutputs cl.ReorderOperands

/-- `main` (Tool.cpp, lines 50-87), after the command line has been parsed. -/
def main {F : Type} (w : World F) (cl : CommandLine) : Outcome F :=
  match readModule w cl.InputFilename with
  | (none, t0) => ⟨1, t0⟩
  | (some M, t0) =>
    let C := mainCanonicalizer cl
    let r := runOnFunctions w C M.functions
    let M1 : Module F := { M with functions := r.1 }
    let broken := w.verifyModule M1
    let t1 := t0 ++ [Event.construct C] ++ r.2 ++ [Event.verifyModule M1 broken]
    if broken then ⟨1, t1⟩
    else
      let EC := w.openOutput cl.OutputFilename
      let t2 := t1 ++ [Event.openOutput cl.OutputFilename EC]
      if EC ≠ 0 then ⟨1, t2 ++ [Event.errMessage EC]⟩
      else ⟨0, t2 ++ [Event.print M1, Event.close]⟩

/-- The module after the loop of `main`: every function replaced by what
`runOnFunction` left in its place. -/
def canonModule {F : Type} (w : World F) (C : IRCanonicalizer) (M : Module F) : Module F :=
  { M with functions := M.functions.map (fun f => (w.runOnFunction C f).1) }

/-- The log entries of the `runOnFunction` calls that the loop of `main`
makes on a module, were each function visited once in module order. -/
def expectedCalls {F : Type} (w : World F) (C : IRCanonicalizer) (M : Module F) :
    List (Event F) :=
  M.functions.map (fun f => Event.runOnFunction C f (w.runOnFunction C f).2)

/-- Is this log entry a `runOnFunction` call? -/
def Event.isRun {F : Type} : Event F → Bool
  | Event.runOnFunction _ _ _ => true
  | _ => false

/-- Is this log entry the opening of the output file or a write to it? -/
def Event.isOutput {F : Type} : Event F → Bool
  | Event.openOutput _ _ => true
  | Event.print _ => true
  | Event.close => true
  | _ => false

/-- Is this log entry the printing of a module? -/
def Event.isPrint {F : Type} : Event F → Bool
  | Event.print _ => true
  | _ => false

/-- Did at least one `runOnFunction` call of the log return `true`? -/
def anyChanged {F : Type} : List (Event F) → Bool
  | [] => false
  | Event.runOnFunction _ _ c :: es => c || anyChanged es
  | _ :: es => anyChanged es

/-- What a run of `main` shows to the outside: the exit status and the log
without the values that `runOnFunction` returned. -/
def Event.forget {F : Type} : Event F → Event F
  | Event.runOnFunction C f _ => Event.runOnFunction C f false
  | e => e

/-- The observable part of an outcome. -/
def Outcome.observable {F : Type} (o : Outcome F) : Outcome F :=
  ⟨o.exit, o.trace.map Event.forget⟩

/-- The three failure cases of a run: the module does not load, the verifier
reports the canonicalized module broken, the output file yields an error code. -/
def Failure {F : Type} (w : World F) (cl : CommandLine) : Prop :=
  w.parseIRFile cl.InputFilename = none ∨
  (∃ M, w.parseIRFile cl.InputFilename = some M ∧
    w.verifyModule (canonModule w (mainCanonicalizer cl) M) = true) ∨
  w.openOutput cl.OutputFilename ≠ 0

/-- A sample command line. -/
def sampleCL : CommandLine :=
  { InputFilename := "in.ll", OutputFilename := "out.ll"
    PreserveOrder := true, RenameAll := false, FoldPreoutputs := true
    ReorderOperands := false }

/-- A sample world over functions coded as numbers: the module has the three
functions 5, 6, 7, canonicalization adds 10 and says it changed the function,
the verifier accepts, the output file opens. -/
def sampleWorld : World Nat :=
  { parseIRFile := fun _ => some ⟨"globals", [5, 6, 7]⟩
    runOnFunction := fun _ f => (f + 10, true)
    verifyModule := fun _ => false
    openOutput := fun _ => 0 }

/-- The sample world with a `runOnFunction` that leaves the same functions but
returns `false`. -/
def quietWorld : World Nat :=
  { sampleWorld with runOnFunction := fun _ f => (f + 10, false) }

/-- The sample world, except that the input does not parse. -/
def noLoadWorld : World Nat :=
  { sampleWorld with parseIRFile := fun _ => none }

/-- The sample world, except that the verifier reports every module broken. -/
def brokenWorld : World Nat :=
  { sampleWorld with verifyModule := fun _ => true }

/-- The sample world, except that the output file yields error code 13. -/
def noOpenWorld : World Nat :=
  { sampleWorld with openOutput := fun _ => 13 }


/-! ## Part II: the canonicalizer

`IRCanonicalizer.h` declares `runOnFunction` and its helpers; their bodies are
not among the sources.  The definitions of this part are therefore modelled
from the specification (sections 3, 4 and 6 of spec.md).  Whatever the
specification leaves open (the control-flow order used to number the blocks,
the spelling of the sequential instruction names, the label derived from a
footprint, the secondary hash, which names count as generated) is a field of
`Scheme`, and the theorems hold for every scheme.  The naming walk takes the
dependencies of an instruction in an order that is a function of the
dependency graph alone (sections 4.2 and 4.3): operand order where it is part
of the content of the instruction, footprint, hash and arena index where it is
incidental (commutative and merge instructions). -/

/-- Modelled from the spec: the index of an instruction in the arena of its function (section 9:
instructions are addressed by stable indices). -/
abbrev InstId := Nat

/-- Modelled from the spec: the index of a basic block in the block list of
its function (section 3). -/
abbrev BlockId := Nat

/-- Modelled from the spec: what a Use reads (section 3): a constant with its
canonical text and type, an argument, the value of an instruction, or a block
label (a branch target). -/
inductive ValueRef where
  | const (text : String) (ty : Nat) : ValueRef
  | arg (i : Nat) : ValueRef
  | inst (id : InstId) : ValueRef
  | block (b : BlockId) : ValueRef
deriving DecidableEq, Repr

/-- Modelled from the spec: the opcode kind of an instruction (section 3).
The canonicalizer only distinguishes merge instructions, commutative opcodes
and all the others; `kind` tells the opcodes of one class apart. -/
inductive Opcode where
  | merge : Opcode
  | commutative (kind : Nat) : Opcode
  | plain (kind : Nat) : Opcode
deriving DecidableEq, Repr

/-- Modelled from the spec: is this the opcode of a merge instruction
(section 3)? -/
def Opcode.isMerge : Opcode → Bool
  | Opcode.merge => true
  | _ => false

/-- Modelled from the spec: is this a commutative opcode (section 4.4)? -/
def Opcode.isCommutative : Opcode → Bool
  | Opcode.commutative _ => true
  | _ => false

/-- Modelled from the spec: an Instruction (section 3): an opcode kind, a
side-effect flag, the type of the value it produces (if any), the name of
that value, the ordered operand list, and for a merge instruction the list of
(predecessor block, incoming value) pairs that stands in for the operand list. -/
structure Inst where
  opcode : Opcode
  sideEffect : Bool
  ty : Option Nat
  name : String
  operands : List ValueRef
  incoming : List (BlockId × ValueRef)
deriving DecidableEq, Repr

/-- Modelled from the spec: an Argument (section 3), a Value with a name and
a type. -/
structure Arg where
  name : String
  ty : Nat
deriving DecidableEq, Repr

/-- Modelled from the spec: a Basic Block (section 3): its label and the
ordered sequence of its instructions, as arena indices. -/
structure Block where
  name : String
  insts : List InstId
deriving DecidableEq, Repr

/-- Modelled from the spec: a Function (section 3): the ordered arguments,
the ordered basic blocks (the entry block first) and the arena that holds the
instructions. -/
structure Function where
  args : List Arg
  blocks : List Block
  insts : List Inst
deriving DecidableEq, Repr

/-- Modelled from the spec: the choices that the specification leaves open
(section 9, open question), as parameters of the canonicalizer.
* `blockOrder` is the control-flow order in which blocks are numbered, computed
  from the control-flow graph given as the successor set of each block;
* `instName n` is the `n`-th name of the sequential scheme for instructions;
* `foldName` is the label derived from a footprint and a hash;
* `hash` is the secondary key from the seed, the opcode and the operands;
* `generated` tells whether a name is a generated one (as opposed to a name
  the instruction already carried on purpose). -/
structure Scheme where
  blockOrder : List (Finset BlockId) → List BlockId
  instName : Nat → String
  foldName : List Nat → Nat → String
  hash : Nat → Opcode → List ValueRef → Nat
  generated : String → Bool

/-- The constant `MagicHashConstant` of IRCanonicalizer.h, line 32. -/
def MagicHashConstant : Nat := 0x6acaa36bef8325c5

/-- Modelled from the spec: the values an instruction reads (its Uses,
section 3): the incoming values of a merge
instruction, the operands of any other. -/
def Inst.uses (i : Inst) : List ValueRef :=
  if i.opcode.isMerge then i.incoming.map Prod.snd else i.operands

/-- Modelled from the spec: the instructions of a function in block order,
then in-block order (section 4.1). -/
def instIds (f : Function) : List InstId :=
  (f.blocks.map Block.insts).flatten

/-- Modelled from the spec: does instruction `u` read the value of instruction
`id` (is there a Use from `u` to `id`, section 3)? -/
def usesInst (f : Function) (u id : InstId) : Bool :=
  match f.insts[u]? with
  | some i => i.uses.contains (ValueRef.inst id)
  | none => false

/-- Modelled from the spec: the consumers of the value of `id` (section 4.1):
the instructions of the function that
read it, listed by arena index. -/
def consumers (f : Function) (id : InstId) : List InstId :=
  (List.range f.insts.length).filter (fun u => (instIds f).contains u && usesInst f u id)

/-- Modelled from the spec: `isOutput` (section 4.1): an instruction is an
output if it carries a side effect or has no consumer within the function. -/
def isOutput (f : Function) (id : InstId) : Bool :=
  match f.insts[id]? with
  | some i => i.sideEffect || (consumers f id).isEmpty
  | none => false

/-- Modelled from the spec: `collectOutputInstructions` (section 4.1): the
output instructions in original block order and original in-block order. -/
def collectOutputInstructions (f : Function) : List InstId :=
  (instIds f).filter (isOutput f)

/-- Modelled from the spec: is `id` a commutative instruction of `f`
(section 4.4)? -/
def isCommutativeInst (f : Function) (id : InstId) : Bool :=
  match f.insts[id]? with
  | some i => i.opcode.isCommutative
  | none => false

/-- Modelled from the spec: is `id` a merge instruction of `f` (section 3)? -/
def isMergeInst (f : Function) (id : InstId) : Bool :=
  match f.insts[id]? with
  | some i => i.opcode.isMerge
  | none => false

/-- Modelled from the spec: the forward walk behind `getOutputFootprint`
(section 4.2): from `i` along consumers, guarded by a visited-set,
recording the index (in the output list) of every output met. -/
def footprintWalk (f : Function) (outs : List InstId) :
    Nat → InstId → List InstId × List Nat → List InstId × List Nat
  | 0, _, s => s
  | fuel + 1, i, s =>
    if s.1.contains i then s
    else
      let fp := if outs.contains i && !s.2.contains (outs.indexOf i)
        then s.2 ++ [outs.indexOf i] else s.2
      (consumers f i).foldl (fun st u => footprintWalk f outs fuel u st) (i :: s.1, fp)

/-- Modelled from the spec: `getOutputFootprint` (section 4.2): the indices,
one per entry of the output list, of the outputs that transitively consume the
value of `id`. -/
def getOutputFootprint (f : Function) (outs : List InstId) (id : InstId) : List Nat :=
  ((consumers f id).foldl
    (fun st u => footprintWalk f outs (f.insts.length + 1) u st) ([], [])).2

/-- Modelled from the spec: lexicographic comparison of two sequences of
numbers, used to compare footprints and operand identities (section 4.2). -/
def natLexLe : List Nat → List Nat → Bool
  | [], _ => true
  | _ :: _, [] => false
  | a :: as, b :: bs =>
    if a < b then true
    else if b < a then false
    else natLexLe as bs

/-- Modelled from the spec: the identity of an operand (section 4.2) as a
sequence of numbers: the kind of the reference followed by what it refers to
(type and text of a constant, index of an argument, instruction or block). -/
def ValueRef.code : ValueRef → List Nat
  | ValueRef.const text ty => 0 :: ty :: text.data.map Char.toNat
  | ValueRef.arg k => [1, k]
  | ValueRef.inst id => [2, id]
  | ValueRef.block b => [3, b]

/-- Modelled from the spec: the operand identity that enters the hash
(section 4.2).  The hash is a function of instruction content, not of an
incidental order: the operands of a commutative instruction and the incoming
values of a merge instruction are taken in the order of their identities, the
operands of any other instruction in operand order. -/
def hashOperands (i : Inst) : List ValueRef :=
  if i.opcode.isCommutative || i.opcode.isMerge then
    i.uses.insertionSort (fun a b => natLexLe a.code b.code = true)
  else i.uses

/-- Modelled from the spec: the secondary key of an instruction (section 4.2):
the hash of the seed, the opcode and the operand identity. -/
def instHash (S : Scheme) (f : Function) (id : InstId) : Nat :=
  match f.insts[id]? with
  | some i => S.hash MagicHashConstant i.opcode (hashOperands i)
  | none => 0

/-- Modelled from the spec: the instruction-valued operands of `id`
(section 4.3, step 3), in operand order: the operands
that reference an instruction of the arena. -/
def deps (f : Function) (id : InstId) : List InstId :=
  match f.insts[id]? with
  | some i => i.uses.filterMap (fun v =>
      match v with
      | ValueRef.inst d => if d < f.insts.length then some d else none
      | _ => none)
  | none => []

/-- Modelled from the spec: the order in which the walk takes the
dependencies of `id` (sections 4.2 and 4.3).  Operand order is part of the
content of an instruction that is neither commutative nor a merge, and is kept.
The operand order of a commutative instruction and the order of the incoming
pairs of a merge instruction are incidental: their dependencies are ordered by
footprint, instructions with the same footprint by hash, and the ties that
both leave by arena index (three stable sorts, the last key first). -/
def walkDeps (S : Scheme) (f : Function) (outs : List InstId) (id : InstId) : List InstId :=
  if isMergeInst f id || isCommutativeInst f id then
    (((deps f id).insertionSort (fun a b => a ≤ b)).insertionSort
      (fun a b => instHash S f a ≤ instHash S f b)).insertionSort
      (fun a b => natLexLe (getOutputFootprint f outs a) (getOutputFootprint f outs b) = true)
  else deps f id

/-- Modelled from the spec: the state of the naming walk (section 4.3): the
visited-set of instructions reached so far and the
instructions named so far, in the order in which they were named. -/
structure WalkState where
  visited : List InstId
  order : List InstId
deriving DecidableEq, Repr

/-- Modelled from the spec: `nameInstruction` (section 4.3, step 3): the
backward walk from one instruction over its operand Uses.  An instruction
already visited is skipped; otherwise its operand-producing instructions are
walked first, in the order that `dep` gives them (`walkDeps`: the order of
sections 4.2 and 4.3, reproducible from the dependency graph alone), and the
instruction is named after them (postorder).  The first argument bounds the
depth of the recursion. -/
def nameInstruction (dep : InstId → List InstId) : Nat → InstId → WalkState → WalkState
  | 0, _, s => s
  | fuel + 1, i, s =>
    if s.visited.contains i then s
    else
      let s1 : WalkState := ⟨i :: s.visited, s.order⟩
      let s2 := (dep i).foldl (fun st d => nameInstruction dep fuel d st) s1
      ⟨s2.visited, s2.order ++ [i]⟩

/-- Modelled from the spec: the naming walk from every output in turn
(section 4.3, step 3): the instructions in the order in which they are named.
The depth of the walk never exceeds the number of instructions. -/
def namingOrder (S : Scheme) (f : Function) (outs : List InstId) : List InstId :=
  (outs.foldl (fun st o => nameInstruction (walkDeps S f outs) (f.insts.length + 1) o st)
    (WalkState.mk [] [])).order

/-- Modelled from the spec: the folding condition (section 4.3, step 4): the
folding option is on, the instruction has a single consumer, and that
consumer is an output. -/
def isFoldable (C : IRCanonicalizer) (f : Function) (outs : List InstId) (id : InstId) : Bool :=
  C.FoldPreoutputs &&
    match consumers f id with
    | [u] => outs.contains u
    | _ => false

/-- Modelled from the spec: the canonical name of a visited instruction
(section 4.3, steps 3 and 4):
the label derived from footprint and hash when the instruction is folded, the
sequential name of its rank in the naming order otherwise. -/
def canonicalName (S : Scheme) (C : IRCanonicalizer) (f : Function) (outs order : List InstId)
    (id : InstId) (i : Inst) : String :=
  if isFoldable C f outs id then
    S.foldName (getOutputFootprint f outs id) (S.hash MagicHashConstant i.opcode (hashOperands i))
  else S.instName (order.indexOf id + 1)

/-- Modelled from the spec: `nameFunctionArguments` (section 4.3, step 1):
`arg1, arg2, ...` in declaration order, whatever the flags. -/
def nameFunctionArguments (f : Function) : Function :=
  { f with args := f.args.mapIdx (fun k a => { a with name := "arg" ++ toString (k + 1) }) }

/-- Modelled from the spec: the block labels that instruction `id` has as
operands (section 3; its branch
targets). -/
def targets (f : Function) (id : InstId) : List BlockId :=
  match f.insts[id]? with
  | some i => i.operands.filterMap (fun v =>
      match v with
      | ValueRef.block t => some t
      | _ => none)
  | none => []

/-- Modelled from the spec: the control-flow edges (section 3): for each
block, the set of blocks that its
instructions name as targets. -/
def successors (f : Function) : List (Finset BlockId) :=
  f.blocks.map (fun b => (b.insts.flatMap (targets f)).toFinset)

/-- Modelled from the spec: `nameBasicBlocks` (section 4.3, step 2):
`bb1, bb2, ...` in control-flow order. -/
def nameBasicBlocks (S : Scheme) (f : Function) : Function :=
  let ord := S.blockOrder (successors f)
  { f with blocks := f.blocks.mapIdx (fun k b =>
      if ord.contains k then { b with name := "bb" ++ toString (ord.indexOf k + 1) } else b) }

/-- Modelled from the spec: the naming of one instruction (section 4.3,
step 3): an instruction reached
by the walk receives its canonical name, unless it carries a non-generated
name and renaming is not forced. -/
def assignName (S : Scheme) (C : IRCanonicalizer) (f : Function) (outs order : List InstId)
    (id : InstId) (i : Inst) : Inst :=
  if order.contains id && (C.RenameAll || S.generated i.name) then
    { i with name := canonicalName S C f outs order id i }
  else i

/-- Modelled from the spec: `nameInstructions` (section 4.3, step 3): every
instruction of the arena is named by `assignName`. -/
def nameInstructions (S : Scheme) (C : IRCanonicalizer) (outs order : List InstId)
    (f : Function) : Function :=
  { f with insts := f.insts.mapIdx (assignName S C f outs order) }

/-- Modelled from the spec: repositioning within one block (section 4.4).
Put the instructions `ms` into the slots of `l` that hold a movable
instruction, in order; the slots of the fixed instructions are kept. -/
def refill (fixed : InstId → Bool) : List InstId → List InstId → List InstId
  | [], _ => []
  | x :: xs, ms =>
    if fixed x then x :: refill fixed xs ms
    else
      match ms with
      | [] => x :: refill fixed xs []
      | m :: ms1 => m :: refill fixed xs ms1

/-- Modelled from the spec: the instructions that are never relocated
(section 4.4): outputs, merge
instructions, and instructions the naming walk did not reach (they have no
rank). -/
def isFixed (f : Function) (outs order : List InstId) (id : InstId) : Bool :=
  outs.contains id || isMergeInst f id || !order.contains id

/-- Modelled from the spec: the movable instructions of a block (section 4.4),
sorted by the rank of their
canonical name. -/
def sortByRank (order : List InstId) (l : List InstId) : List InstId :=
  l.insertionSort (fun a b => order.indexOf a ≤ order.indexOf b)

/-- Modelled from the spec: `reorderInstructions` (section 4.4, instruction
repositioning): within each block every non-output, non-merge instruction
takes the earliest free position consistent with the naming order; outputs and
merge instructions keep their position. -/
def reorderInstructions (outs order : List InstId) (f : Function) : Function :=
  { f with blocks := f.blocks.map (fun b =>
      let movable := b.insts.filter (fun id => !isFixed f outs order id)
      { b with insts := refill (isFixed f outs order) b.insts (sortByRank order movable) }) }

/-- Modelled from the spec: lexicographic comparison of two character
sequences (section 4.4). -/
def lexLe : List Char → List Char → Bool
  | [], _ => true
  | _ :: _, [] => false
  | a :: as, b :: bs =>
    if a.toNat < b.toNat then true
    else if b.toNat < a.toNat then false
    else lexLe as bs

/-- Modelled from the spec: lexicographic comparison of two names
(section 4.4). -/
def nameLe (a b : String) : Bool := lexLe a.data b.data

/-- Modelled from the spec: the text by which an operand is sorted
(section 4.4): the canonical text
of a constant, the assigned name of an argument, instruction or block. -/
def valueKey (f : Function) : ValueRef → String
  | ValueRef.const text _ => text
  | ValueRef.arg k => (f.args[k]?.map Arg.name).getD ""
  | ValueRef.inst id => (f.insts[id]?.map Inst.name).getD ""
  | ValueRef.block b => (f.blocks[b]?.map Block.name).getD ""

/-- Modelled from the spec: `reorderInstructionOperandsByNames` (section 4.4):
the operands sorted by the name of the value each one references. -/
def reorderInstructionOperandsByNames (f : Function) (ops : List ValueRef) : List ValueRef :=
  ops.insertionSort (fun a b => nameLe (valueKey f a) (valueKey f b) = true)

/-- Modelled from the spec: `reorderPHIIncomingValues` (section 4.4): the
(predecessor, value) pairs sorted by the name of the predecessor block. -/
def reorderPHIIncomingValues (f : Function) (inc : List (BlockId × ValueRef)) :
    List (BlockId × ValueRef) :=
  inc.insertionSort (fun p q =>
    nameLe (valueKey f (ValueRef.block p.1)) (valueKey f (ValueRef.block q.1)) = true)

/-- Modelled from the spec: operand canonicalization of one instruction
(section 4.4): the incoming
pairs of a merge instruction are sorted whatever the option; the operands of a
commutative instruction are sorted when the option is on. -/
def canonicalizeOperands (C : IRCanonicalizer) (f : Function) (i : Inst) : Inst :=
  if i.opcode.isMerge then { i with incoming := reorderPHIIncomingValues f i.incoming }
  else if C.ReorderOperands && i.opcode.isCommutative then
    { i with operands := reorderInstructionOperandsByNames f i.operands }
  else i

/-- Modelled from the spec: operand canonicalization (section 4.4) of every
instruction of the arena. -/
def reorderOperands (C : IRCanonicalizer) (f : Function) : Function :=
  { f with insts := f.insts.map (canonicalizeOperands C f) }

/-- Modelled from the spec: `IRCanonicalizer::runOnFunction`, the operation
`canonicalize(function, options) -> changed` (sections 2 and 6): collect the
outputs, name arguments, blocks and instructions, reposition the instructions
unless the original order is to be preserved, canonicalize the operands;
report whether the function changed. -/
def runOnFunction (S : Scheme) (C : IRCanonicalizer) (f : Function) : Function × Bool :=
  let outs := collectOutputInstructions f
  let order := namingOrder S f outs
  let f1 := nameInstructions S C outs order (nameBasicBlocks S (nameFunctionArguments f))
  let f2 := if C.PreserveOrder then f1 else reorderInstructions outs order f1
  let f3 := reorderOperands C f2
  (f3, decide (f3 ≠ f))

/-- Modelled from the spec: the type of the value an operand references
(section 3). -/
def typeOf (f : Function) : ValueRef → Option Nat
  | ValueRef.const _ ty => some ty
  | ValueRef.arg k => f.args[k]?.map Arg.ty
  | ValueRef.inst id => (f.insts[id]?).bind Inst.ty
  | ValueRef.block _ => none

/-- A scheme for examples: blocks are numbered in layout order (the entry
block first), the sequential names are `v1, v2, ...`, a folded name is `f`
followed by the hash, the hash is the seed plus the number of operands, and
the generated names are the empty ones. -/
def sampleScheme : Scheme :=
  { blockOrder := fun cfg => List.range cfg.length
    instName := fun n => "v" ++ toString n
    foldName := fun _ h => "f" ++ toString h
    hash := fun seed _ ops => seed + ops.length
    generated := fun s => s.isEmpty }

/-- The naming phase of `runOnFunction`: arguments, blocks, then the
instructions reached from the outputs. -/
def namingPhase (S : Scheme) (C : IRCanonicalizer) (f : Function) : Function :=
  nameInstructions S C (collectOutputInstructions f)
    (namingOrder S f (collectOutputInstructions f))
    (nameBasicBlocks S (nameFunctionArguments f))

/-- The repositioning phase of `runOnFunction`, after the naming phase. -/
def positionPhase (S : Scheme) (C : IRCanonicalizer) (f : Function) : Function :=
  if C.PreserveOrder then namingPhase S C f
  else reorderInstructions (collectOutputInstructions f)
    (namingOrder S f (collectOutputInstructions f)) (namingPhase S C f)

/-- What canonicalization leaves of one instruction: the opcode, the
side-effect flag, the type, the operands up to their order, and the very
order of the operands unless the instruction is commutative (operand list) or
a merge (incoming pairs). -/
def InstFrame (i j : Inst) : Prop :=
  j.opcode = i.opcode ∧ j.sideEffect = i.sideEffect ∧ j.ty = i.ty ∧
  j.operands.Perm i.operands ∧ j.incoming.Perm i.incoming ∧
  (i.opcode.isCommutative = false → j.operands = i.operands) ∧
  (i.opcode.isMerge = false → j.incoming = i.incoming)

/-- The frame of canonicalization on a whole function `f`, with `g` the
function afterwards: same number of arguments with the same types; the same
arena slots, each instruction keeping what `InstFrame` lists; the same blocks,
each holding the same instructions up to their order. -/
def Frame (f g : Function) : Prop :=
  g.args.map Arg.ty = f.args.map Arg.ty ∧
  g.insts.length = f.insts.length ∧
  (∀ (id : InstId) (i j : Inst), f.insts[id]? = some i → g.insts[id]? = some j →
    InstFrame i j) ∧
  g.blocks.length = f.blocks.length ∧
  (∀ (k : BlockId) (b c : Block), f.blocks[k]? = some b → g.blocks[k]? = some c →
    c.insts.Perm b.insts)

/-- What `runOnFunction` must leave of a function `f`, with `g` the function
afterwards: the frame (opcode, side-effect flag, type and operand set of every
instruction, operand order outside commutative and merge instructions, the
instructions of every block), the type of the value behind every operand, the
control-flow edges, and the in-block position of every output and of every
merge instruction. -/
def SemanticsPreserved (f g : Function) : Prop :=
  Frame f g ∧
  (∀ v : ValueRef, typeOf g v = typeOf f v) ∧
  successors g = successors f ∧
  (∀ (k : BlockId) (b c : Block) (n : Nat) (id : InstId),
    f.blocks[k]? = some b → g.blocks[k]? = some c → b.insts[n]? = some id →
    (isOutput f id = true ∨ isMergeInst f id = true) → c.insts[n]? = some id)

/-- An example function with one argument `x` and one block:
`r = op1 x; q = op2 x; p = op3 r, q; c = add p, q; ret c`,
where `add` is commutative and `ret` has a side effect. -/
def sampleFunction : Function :=
  { args := [⟨"x", 32⟩]
    blocks := [⟨"entry", [0, 1, 2, 3, 4]⟩]
    insts := [
      ⟨Opcode.plain 1, false, some 32, "r", [ValueRef.arg 0], []⟩,
      ⟨Opcode.plain 2, false, some 32, "q", [ValueRef.arg 0], []⟩,
      ⟨Opcode.plain 3, false, some 32, "p", [ValueRef.inst 0, ValueRef.inst 1], []⟩,
      ⟨Opcode.commutative 4, false, some 32, "c", [ValueRef.inst 2, ValueRef.inst 1], []⟩,
      ⟨Opcode.plain 5, true, none, "", [ValueRef.inst 3], []⟩] }

/-- The flags rename-all and reorder-operands on, the other two off. -/
def renameAndReorder : IRCanonicalizer :=
  IRCanonicalizer.new false true false true

/-- The flags preserve-order and rename-all on, the other two off. -/
def preserveAndRename : IRCanonicalizer :=
  IRCanonicalizer.new true true false false

/-- An example function with a loop and a merge instruction:
`entry: br loop`,
`loop: i = phi [entry: 0], [loop: inc]; inc = add 1, i; cmp = icmp inc, n; br cmp, loop, exit`,
`exit: ret inc`. -/
def loopFunction : Function :=
  { args := [⟨"n", 32⟩]
    blocks := [⟨"entry", [0]⟩, ⟨"loop", [1, 2, 3, 4]⟩, ⟨"exit", [5]⟩]
    insts := [
      ⟨Opcode.plain 10, true, none, "", [ValueRef.block 1], []⟩,
      ⟨Opcode.merge, false, some 32, "i", [],
        [(0, ValueRef.const "0" 32), (1, ValueRef.inst 2)]⟩,
      ⟨Opcode.commutative 1, false, some 32, "inc",
        [ValueRef.const "1" 32, ValueRef.inst 1], []⟩,
      ⟨Opcode.plain 2, false, some 1, "cmp", [ValueRef.inst 2, ValueRef.arg 0], []⟩,
      ⟨Opcode.plain 11, true, none, "",
        [ValueRef.inst 3, ValueRef.block 1, ValueRef.block 2], []⟩,
      ⟨Opcode.plain 12, true, none, "", [ValueRef.inst 2], []⟩] }

/-- The number of arena indices below `n` that are not in `visited`: a bound on
the depth that a walk can still reach. -/
def unvisited (n : Nat) (visited : List InstId) : Nat :=
  ((List.range n).filter (fun x => !visited.contains x)).length

/-- The first example of section 8 of the specification: `a = add x, y` and
`b = add y, x`, with a return of `b`; `x` and `y` are the arguments. -/
def twoAddsFunction : Function :=
  { args := [⟨"x", 32⟩, ⟨"y", 32⟩]
    blocks := [⟨"entry", [0, 1, 2]⟩]
    insts := [
      ⟨Opcode.commutative 1, false, some 32, "a", [ValueRef.arg 0, ValueRef.arg 1], []⟩,
      ⟨Opcode.commutative 1, false, some 32, "b", [ValueRef.arg 1, ValueRef.arg 0], []⟩,
      ⟨Opcode.plain 12, true, none, "", [ValueRef.inst 1], []⟩] }

/-- The second example of section 8 of the specification: a merge instruction
in block `join` whose incoming pairs list the later predecessor `B` before the
earlier predecessor `A`. -/
def mergeFunction : Function :=
  { args := [⟨"c", 1⟩]
    blocks := [⟨"entry", [0]⟩, ⟨"A", [1, 2]⟩, ⟨"B", [3, 4]⟩, ⟨"join", [5, 6]⟩]
    insts := [
      ⟨Opcode.plain 11, true, none, "", [ValueRef.arg 0, ValueRef.block 1, ValueRef.block 2], []⟩,
      ⟨Opcode.plain 1, false, some 32, "v2", [ValueRef.arg 0], []⟩,
      ⟨Opcode.plain 10, true, none, "", [ValueRef.block 3], []⟩,
      ⟨Opcode.plain 2, false, some 32, "v1", [ValueRef.arg 0], []⟩,
      ⟨Opcode.plain 10, true, none, "", [ValueRef.block 3], []⟩,
      ⟨Opcode.merge, false, some 32, "m", [],
        [(2, ValueRef.inst 3), (1, ValueRef.inst 1)]⟩,
      ⟨Opcode.plain 12, true, none, "", [ValueRef.inst 5], []⟩] }

/-- All four flags off. -/
def noFlags : IRCanonicalizer :=
  IRCanonicalizer.new false false false false
/-! ## Theorems on the driver -/

theorem runOnFunctions_fst {F : Type} (w : World F) (C : IRCanonicalizer) (fs : List F) :
    (runOnFunctions w C fs).1 = fs.map (fun f => (w.runOnFunction C f).1) := by
  induction fs with
  | nil => rfl
  | cons f fs ih => simp [runOnFunctions, ih]

theorem runOnFunctions_snd {F : Type} (w : World F) (C : IRCanonicalizer) (fs : List F) :
    (runOnFunctions w C fs).2 =
      fs.map (fun f => Event.runOnFunction C f (w.runOnFunction C f).2) := by
  induction fs with
  | nil => rfl
  | cons f fs ih => simp [runOnFunctions, ih]

theorem main_of_not_loaded {F : Type} (w : World F) (cl : CommandLine)
    (h : w.parseIRFile cl.InputFilename = none) :
    main w cl = ⟨1, [Event.diagPrint]⟩ := by
  simp [main, readModule, h]

/-- The run of `main` on a module that loads, with the loop unfolded. -/
theorem main_of_loaded {F : Type} (w : World F) (cl : CommandLine) (M : Module F)
    (h : w.parseIRFile cl.InputFilename = some M) :
    main w cl =
      (let C := mainCanonicalizer cl
       let M1 := canonModule w C M
       let t1 := Event.construct C :: (expectedCalls w C M ++ [Event.verifyModule M1 (w.verifyModule M1)])
       if w.verifyModule M1 = true then ⟨1, t1⟩
       else if w.openOutput cl.OutputFilename ≠ 0 then
         ⟨1, t1 ++ [Event.openOutput cl.OutputFilename (w.openOutput cl.OutputFilename),
                    Event.errMessage (w.openOutput cl.OutputFilename)]⟩
       else ⟨0, t1 ++ [Event.openOutput cl.OutputFilename (w.openOutput cl.OutputFilename),
                    Event.print M1, Event.close]⟩) := by
  simp only [main, readModule, h, runOnFunctions_fst, runOnFunctions_snd, canonModule,
    expectedCalls]
  split <;> [skip; split] <;> simp

theorem filter_isRun_expectedCalls {F : Type} (w : World F) (C : IRCanonicalizer)
    (M : Module F) : (expectedCalls w C M).filter Event.isRun = expectedCalls w C M := by
  simp only [expectedCalls]
  induction M.functions with
  | nil => rfl
  | cons f fs ih => simp [Event.isRun, ih]

/-- C3: if the input module fails to load, or the verifier reports the
canonicalized module broken, or opening the output file yields an error code,
then `main` returns a non-zero exit status. -/
theorem main_exit_nonzero_of_failure {F : Type} (w : World F) (cl : CommandLine)
    (h : Failure w cl) : (main w cl).exit ≠ 0 := by
  cases hl : w.parseIRFile cl.InputFilename with
  | none => simp [main_of_not_loaded w cl hl]
  | some M =>
    rw [main_of_loaded w cl M hl]
    rcases h with h | ⟨M2, hM2, hv⟩ | ho
    · simp [hl] at h
    · have : M2 = M := by rw [hl] at hM2; exact (Option.some.inj hM2).symm
      subst this
      simp [hv]
    · by_cases hv : w.verifyModule (canonModule w (mainCanonicalizer cl) M) = true
      · simp [hv]
      · simp [hv, ho]

/-- Witness of C3: one run for each of the three failure cases. -/
theorem main_exit_nonzero_of_failure_witness :
    (main noLoadWorld sampleCL).exit ≠ 0 ∧ (main brokenWorld sampleCL).exit ≠ 0 ∧
      (main noOpenWorld sampleCL).exit ≠ 0 :=
  ⟨main_exit_nonzero_of_failure noLoadWorld sampleCL (Or.inl rfl),
   main_exit_nonzero_of_failure brokenWorld sampleCL
     (Or.inr (Or.inl ⟨⟨"globals", [5, 6, 7]⟩, rfl, rfl⟩)),
   main_exit_nonzero_of_failure noOpenWorld sampleCL (Or.inr (Or.inr (by decide)))⟩

/-- C4: for every value of the four command-line options, the canonicalizer
that `main` constructs has `PreserveOrder`, `RenameAll`, `FoldPreoutputs` and
`ReorderOperands` equal to the options preserve-order, rename-all, fold-all and
reorder-operands respectively, and it is the only canonicalizer a run of `main`
constructs. -/
theorem mainCanonicalizer_fields (inp out : String) (p r f o : Bool) :
    (mainCanonicalizer ⟨inp, out, p, r, f, o⟩).PreserveOrder = p ∧
    (mainCanonicalizer ⟨inp, out, p, r, f, o⟩).RenameAll = r ∧
    (mainCanonicalizer ⟨inp, out, p, r, f, o⟩).FoldPreoutputs = f ∧
    (mainCanonicalizer ⟨inp, out, p, r, f, o⟩).ReorderOperands = o ∧
    ∀ (F : Type) (w : World F) (C : IRCanonicalizer),
      Event.construct C ∈ (main w ⟨inp, out, p, r, f, o⟩).trace → C = ⟨p, r, f, o⟩ := by
  refine ⟨rfl, rfl, rfl, rfl, ?_⟩
  intro F w C hC
  cases hl : w.parseIRFile inp with
  | none => rw [main_of_not_loaded w _ hl] at hC; simp at hC
  | some M =>
    rw [main_of_loaded w _ M hl] at hC
    have key : ∀ (l : List (Event F)), Event.construct C ∈ expectedCalls w
        (mainCanonicalizer ⟨inp, out, p, r, f, o⟩) M ++ l → Event.construct C ∈ l := by
      intro l hm
      rcases List.mem_append.1 hm with hm | hm
      · simp [expectedCalls] at hm
      · exact hm
    dsimp only at hC
    split at hC
    · simp only [List.mem_cons] at hC
      rcases hC with hC | hC
      · injection hC
      · simpa using key _ hC
    · split at hC
      · simp only [List.mem_cons, List.cons_append, List.append_assoc] at hC
        rcases hC with hC | hC
        · injection hC
        · simpa using key _ hC
      · simp only [List.mem_cons, List.cons_append, List.append_assoc] at hC
        rcases hC with hC | hC
        · injection hC
        · simpa using key _ hC

/-- C7: for every module that loads, the `runOnFunction` calls of a run of
`main` are exactly one call per function of the module, in the module's
function order, all made with the one canonicalizer built from the four
options: no function is skipped and none is processed twice. -/
theorem main_runs_each_function_once {F : Type} (w : World F) (cl : CommandLine)
    (M : Module F) (h : w.parseIRFile cl.InputFilename = some M) :
    (main w cl).trace.filter Event.isRun =
      M.functions.map (fun f =>
        Event.runOnFunction (mainCanonicalizer cl) f
          (w.runOnFunction (mainCanonicalizer cl) f).2) := by
  have hE := filter_isRun_expectedCalls w (mainCanonicalizer cl) M
  rw [main_of_loaded w cl M h]
  dsimp only
  split <;> [skip; split] <;>
    simp [List.filter_cons, List.filter_append, Event.isRun, hE, expectedCalls]

/-- Witness of C7: the sample run calls `runOnFunction` on 5, 6, 7 in turn. -/
theorem main_runs_each_function_once_witness :
    (main sampleWorld sampleCL).trace.filter Event.isRun =
      [Event.runOnFunction ⟨true, false, true, false⟩ 5 true,
       Event.runOnFunction ⟨true, false, true, false⟩ 6 true,
       Event.runOnFunction ⟨true, false, true, false⟩ 7 true] :=
  main_runs_each_function_once sampleWorld sampleCL ⟨"globals", [5, 6, 7]⟩ rfl

/-- C8, as stated, fails: in the sample run every `runOnFunction` call returns
`true`, in the quiet run every call returns `false`, and the two runs of
`main` have the same exit status 0 and the same observable behaviour, so
nothing that `main` yields tells whether anything changed. -/
theorem main_does_not_report_changed :
    anyChanged (main sampleWorld sampleCL).trace = true ∧
    anyChanged (main quietWorld sampleCL).trace = false ∧
    (main sampleWorld sampleCL).exit = 0 ∧
    (main quietWorld sampleCL).exit = 0 ∧
    (main sampleWorld sampleCL).observable = (main quietWorld sampleCL).observable := by
  refine ⟨?_, ?_, ?_, ?_, ?_⟩ <;> decide

theorem map_forget_expectedCalls {F : Type} (w1 w2 : World F) (C : IRCanonicalizer)
    (M : Module F) :
    (expectedCalls w1 C M).map Event.forget = (expectedCalls w2 C M).map Event.forget := by
  simp only [expectedCalls, List.map_map]
  apply List.map_congr_left
  intro f _
  rfl

/-- C8, amended: the driver applies `runOnFunction` to every function and
drops each returned flag; the exit status and the observable behaviour of
`main` are the same for any two environments that differ only in the values
the `runOnFunction` calls return. -/
theorem main_ignores_changed_flags {F : Type} (w1 w2 : World F) (cl : CommandLine)
    (hp : w1.parseIRFile = w2.parseIRFile) (hv : w1.verifyModule = w2.verifyModule)
    (ho : w1.openOutput = w2.openOutput)
    (hr : ∀ C f, (w1.runOnFunction C f).1 = (w2.runOnFunction C f).1) :
    (main w1 cl).observable = (main w2 cl).observable := by
  cases hl : w1.parseIRFile cl.InputFilename with
  | none =>
    rw [main_of_not_loaded w1 cl hl, main_of_not_loaded w2 cl (hp ▸ hl)]
  | some M =>
    have hM : canonModule w1 (mainCanonicalizer cl) M = canonModule w2 (mainCanonicalizer cl) M := by
      simp only [canonModule, hr]
    have hE := map_forget_expectedCalls w1 w2 (mainCanonicalizer cl) M
    rw [main_of_loaded w1 cl M hl, main_of_loaded w2 cl M (hp ▸ hl)]
    dsimp only
    rw [hM, ← hv, ← ho]
    split <;> [skip; split] <;>
      simp [Outcome.observable, Event.forget, hE]

/-- Witness of amended C8: the sample run and the quiet run. -/
theorem main_ignores_changed_flags_witness :
    (main sampleWorld sampleCL).observable = (main quietWorld sampleCL).observable :=
  main_ignores_changed_flags sampleWorld quietWorld sampleCL rfl rfl rfl (fun _ _ => rfl)

/-- C9: in every run in which the module loads, the log of `main` is the
construction of the canonicalizer, then the `runOnFunction` calls on all the
functions, then the verifier call on the fully canonicalized module, then the
rest; the rest holds no `runOnFunction` call, it is empty when the verifier
reports failure (the output file is neither opened nor written), and a module
is printed only if the verifier reported no failure. -/
theorem main_verifies_after_canonicalizing {F : Type} (w : World F) (cl : CommandLine)
    (M : Module F) (h : w.parseIRFile cl.InputFilename = some M) :
    ∃ post : List (Event F),
      (main w cl).trace =
        Event.construct (mainCanonicalizer cl) ::
          (expectedCalls w (mainCanonicalizer cl) M ++
            Event.verifyModule (canonModule w (mainCanonicalizer cl) M)
              (w.verifyModule (canonModule w (mainCanonicalizer cl) M)) :: post) ∧
      (∀ e ∈ post, e.isRun = false) ∧
      (w.verifyModule (canonModule w (mainCanonicalizer cl) M) = true → post = []) ∧
      (w.verifyModule (canonModule w (mainCanonicalizer cl) M) = true →
        ∀ e ∈ (main w cl).trace, e.isOutput = false) ∧
      (∀ e ∈ (main w cl).trace, e.isPrint = true →
        w.verifyModule (canonModule w (mainCanonicalizer cl) M) = false) := by
  have hcalls : ∀ e ∈ expectedCalls w (mainCanonicalizer cl) M,
      e.isOutput = false ∧ e.isPrint = false := by
    intro e he
    simp only [expectedCalls, List.mem_map] at he
    obtain ⟨f, _, rfl⟩ := he
    exact ⟨rfl, rfl⟩
  rw [main_of_loaded w cl M h]
  dsimp only
  by_cases hv : w.verifyModule (canonModule w (mainCanonicalizer cl) M) = true
  · refine ⟨[], ?_, ?_, ?_, ?_, ?_⟩
    · simp [hv]
    · simp
    · simp
    · intro _ e he
      simp only [hv, if_true, List.mem_cons, List.mem_append, List.mem_singleton,
        List.not_mem_nil, or_false] at he
      rcases he with rfl | he | rfl
      · rfl
      · exact (hcalls e he).1
      · rfl
    · intro e he hp
      simp only [hv, if_true, List.mem_cons, List.mem_append, List.mem_singleton,
        List.not_mem_nil, or_false] at he
      rcases he with rfl | he | rfl
      · simp [Event.isPrint] at hp
      · rw [(hcalls e he).2] at hp; cases hp
      · simp [Event.isPrint] at hp
  · have hvf : w.verifyModule (canonModule w (mainCanonicalizer cl) M) = false := by
      simpa using hv
    by_cases ho : w.openOutput cl.OutputFilename = 0
    · refine ⟨[Event.openOutput cl.OutputFilename 0,
        Event.print (canonModule w (mainCanonicalizer cl) M), Event.close], ?_, ?_, ?_, ?_, ?_⟩
      · simp [hvf, ho]
      · intro e he
        simp only [List.mem_cons, List.mem_singleton, List.not_mem_nil, or_false] at he
        rcases he with rfl | rfl | rfl <;> rfl
      · intro h2; rw [hvf] at h2; cases h2
      · intro h2; rw [hvf] at h2; cases h2
      · intro _ _ _; exact hvf
    · refine ⟨[Event.openOutput cl.OutputFilename (w.openOutput cl.OutputFilename),
        Event.errMessage (w.openOutput cl.OutputFilename)], ?_, ?_, ?_, ?_, ?_⟩
      · simp [hvf, ho]
      · intro e he
        simp only [List.mem_cons, List.mem_singleton, List.not_mem_nil, or_false] at he
        rcases he with rfl | rfl <;> rfl
      · intro h2; rw [hvf] at h2; cases h2
      · intro h2; rw [hvf] at h2; cases h2
      · intro _ _ _; exact hvf

/-- Witness of C9: the run in which the verifier reports the module broken. -/
theorem main_verifies_after_canonicalizing_witness :
    ∃ post : List (Event Nat),
      (main brokenWorld sampleCL).trace =
        Event.construct (mainCanonicalizer sampleCL) ::
          (expectedCalls brokenWorld (mainCanonicalizer sampleCL) ⟨"globals", [5, 6, 7]⟩ ++
            Event.verifyModule (canonModule brokenWorld (mainCanonicalizer sampleCL)
                ⟨"globals", [5, 6, 7]⟩)
              (brokenWorld.verifyModule (canonModule brokenWorld (mainCanonicalizer sampleCL)
                ⟨"globals", [5, 6, 7]⟩)) :: post) ∧
      (∀ e ∈ post, e.isRun = false) ∧
      (brokenWorld.verifyModule (canonModule brokenWorld (mainCanonicalizer sampleCL)
          ⟨"globals", [5, 6, 7]⟩) = true → post = []) ∧
      (brokenWorld.verifyModule (canonModule brokenWorld (mainCanonicalizer sampleCL)
          ⟨"globals", [5, 6, 7]⟩) = true →
        ∀ e ∈ (main brokenWorld sampleCL).trace, e.isOutput = false) ∧
      (∀ e ∈ (main brokenWorld sampleCL).trace, e.isPrint = true →
        brokenWorld.verifyModule (canonModule brokenWorld (mainCanonicalizer sampleCL)
          ⟨"globals", [5, 6, 7]⟩) = false) :=
  main_verifies_after_canonicalizing brokenWorld sampleCL ⟨"globals", [5, 6, 7]⟩ rfl

/-- C10: when the module loads, verification passes and the output file opens
without error, `main` prints the canonicalized module exactly once and returns
0, whatever the `runOnFunction` calls returned; and `main` returns non-zero
only in one of the three failure cases. -/
theorem main_success_and_failure_cases {F : Type} (w : World F) (cl : CommandLine) :
    (∀ M, w.parseIRFile cl.InputFilename = some M →
      w.verifyModule (canonModule w (mainCanonicalizer cl) M) = false →
      w.openOutput cl.OutputFilename = 0 →
      (main w cl).exit = 0 ∧
      (main w cl).trace.filter Event.isPrint =
        [Event.print (canonModule w (mainCanonicalizer cl) M)]) ∧
    ((main w cl).exit ≠ 0 → Failure w cl) := by
  constructor
  · intro M hl hv ho
    have hE : (expectedCalls w (mainCanonicalizer cl) M).filter Event.isPrint = [] := by
      simp only [expectedCalls]
      induction M.functions with
      | nil => rfl
      | cons f fs ih => simp [Event.isPrint, ih]
    rw [main_of_loaded w cl M hl]
    simp [hv, ho, List.filter_cons, List.filter_append, Event.isPrint, hE]
  · intro hx
    cases hl : w.parseIRFile cl.InputFilename with
    | none => exact Or.inl hl
    | some M =>
      rw [main_of_loaded w cl M hl] at hx
      by_cases hv : w.verifyModule (canonModule w (mainCanonicalizer cl) M) = true
      · exact Or.inr (Or.inl ⟨M, hl, hv⟩)
      · by_cases ho : w.openOutput cl.OutputFilename = 0
        · simp [hv, ho] at hx
        · exact Or.inr (Or.inr ho)

/-- Witness of C10: the sample run prints the canonicalized module once and
returns 0. -/
theorem main_success_and_failure_cases_witness :
    (main sampleWorld sampleCL).exit = 0 ∧
      (main sampleWorld sampleCL).trace.filter Event.isPrint =
        [Event.print ⟨"globals", [15, 16, 17]⟩] :=
  (main_success_and_failure_cases sampleWorld sampleCL).1 ⟨"globals", [5, 6, 7]⟩ rfl rfl rfl

/-! ## Theorems on the canonicalizer -/

theorem runOnFunction_fst (S : Scheme) (C : IRCanonicalizer) (f : Function) :
    (runOnFunction S C f).1 = reorderOperands C (positionPhase S C f) := by
  simp only [runOnFunction, positionPhase, namingPhase]

theorem instFrame_refl (i : Inst) : InstFrame i i :=
  ⟨rfl, rfl, rfl, List.Perm.refl _, List.Perm.refl _, fun _ => rfl, fun _ => rfl⟩

theorem instFrame_trans {i j k : Inst} (h1 : InstFrame i j) (h2 : InstFrame j k) :
    InstFrame i k := by
  obtain ⟨a1, a2, a3, a4, a5, a6, a7⟩ := h1
  obtain ⟨b1, b2, b3, b4, b5, b6, b7⟩ := h2
  refine ⟨b1.trans a1, b2.trans a2, b3.trans a3, b4.trans a4, b5.trans a5, ?_, ?_⟩
  · intro h
    rw [b6 (by rw [a1]; exact h), a6 h]
  · intro h
    rw [b7 (by rw [a1]; exact h), a7 h]

theorem frame_refl (f : Function) : Frame f f := by
  refine ⟨rfl, rfl, ?_, rfl, ?_⟩
  · intro id i j hi hj
    rw [hi] at hj
    cases hj
    exact instFrame_refl i
  · intro k b c hb hc
    rw [hb] at hc
    cases hc
    exact List.Perm.refl _

theorem getElem?_some_of_length_eq {α β : Type} {l : List α} {m : List β}
    (h : m.length = l.length) {k : Nat} {a : α} (ha : l[k]? = some a) : ∃ b, m[k]? = some b := by
  have hk : k < l.length := by
    by_contra hn
    rw [List.getElem?_eq_none (Nat.le_of_not_lt hn)] at ha
    cases ha
  exact ⟨m[k], List.getElem?_eq_getElem (h ▸ hk)⟩

theorem frame_trans {f g h : Function} (h1 : Frame f g) (h2 : Frame g h) : Frame f h := by
  obtain ⟨a1, a2, a3, a4, a5⟩ := h1
  obtain ⟨b1, b2, b3, b4, b5⟩ := h2
  refine ⟨b1.trans a1, b2.trans a2, ?_, b4.trans a4, ?_⟩
  · intro id i k hi hk
    obtain ⟨j, hj⟩ := getElem?_some_of_length_eq a2 hi
    exact instFrame_trans (a3 id i j hi hj) (b3 id j k hj hk)
  · intro n b d hb hd
    obtain ⟨c, hc⟩ := getElem?_some_of_length_eq a4 hb
    exact (b5 n c d hc hd).trans (a5 n b c hb hc)

theorem frame_nameFunctionArguments (f : Function) : Frame f (nameFunctionArguments f) := by
  refine ⟨?_, rfl, ?_, rfl, ?_⟩
  · simp only [nameFunctionArguments]
    apply List.ext_getElem?
    intro k
    simp only [List.getElem?_map, List.getElem?_mapIdx]
    cases f.args[k]? <;> rfl
  · intro id i j hi hj
    simp only [nameFunctionArguments] at hj
    rw [hi] at hj
    cases hj
    exact instFrame_refl i
  · intro k b c hb hc
    simp only [nameFunctionArguments] at hc
    rw [hb] at hc
    cases hc
    exact List.Perm.refl _

theorem frame_nameBasicBlocks (S : Scheme) (f : Function) : Frame f (nameBasicBlocks S f) := by
  refine ⟨rfl, rfl, ?_, ?_, ?_⟩
  · intro id i j hi hj
    simp only [nameBasicBlocks] at hj
    rw [hi] at hj
    cases hj
    exact instFrame_refl i
  · simp [nameBasicBlocks]
  · intro k b c hb hc
    simp only [nameBasicBlocks, List.getElem?_mapIdx, hb, Option.map_some'] at hc
    cases hc
    split <;> exact List.Perm.refl _

theorem frame_nameInstructions (S : Scheme) (C : IRCanonicalizer) (outs order : List InstId)
    (f : Function) : Frame f (nameInstructions S C outs order f) := by
  refine ⟨rfl, ?_, ?_, rfl, ?_⟩
  · simp [nameInstructions]
  · intro id i j hi hj
    simp only [nameInstructions, List.getElem?_mapIdx, hi, Option.map_some'] at hj
    cases hj
    unfold assignName
    split <;> exact instFrame_refl i
  · intro k b c hb hc
    simp only [nameInstructions] at hc
    rw [hb] at hc
    cases hc
    exact List.Perm.refl _

/-! ### Filling the movable slots of a block -/

theorem refill_length (fixed : InstId → Bool) (l ms : List InstId) :
    (refill fixed l ms).length = l.length := by
  induction l generalizing ms with
  | nil => rfl
  | cons x xs ih =>
    cases hx : fixed x
    · cases ms with
      | nil => simp [refill, hx, ih]
      | cons m ms1 => simp [refill, hx, ih]
    · simp [refill, hx, ih]

theorem refill_perm_aux (fixed : InstId → Bool) (l ms : List InstId)
    (h : ms.length = (l.filter (fun x => !fixed x)).length) :
    (refill fixed l ms).Perm (l.filter fixed ++ ms) := by
  induction l generalizing ms with
  | nil =>
    have : ms = [] := by simpa using h
    subst this
    exact List.Perm.refl _
  | cons x xs ih =>
    cases hx : fixed x
    · cases ms with
      | nil => simp [hx] at h
      | cons m ms1 =>
        have h1 : ms1.length = (xs.filter (fun x => !fixed x)).length := by
          simpa [hx] using h
        simp only [refill, hx, Bool.false_eq_true, if_false, List.filter_cons]
        exact ((ih ms1 h1).cons m).trans List.perm_middle.symm
    · have h1 : ms.length = (xs.filter (fun x => !fixed x)).length := by
        simpa [hx] using h
      simp only [refill, hx, if_true, List.filter_cons, List.cons_append]
      exact (ih ms h1).cons x

theorem refill_perm (fixed : InstId → Bool) (l ms : List InstId)
    (h : ms.Perm (l.filter (fun x => !fixed x))) : (refill fixed l ms).Perm l := by
  have h1 := refill_perm_aux fixed l ms h.length_eq
  have h2 : (l.filter fixed ++ ms).Perm (l.filter fixed ++ l.filter (fun x => !fixed x)) :=
    List.Perm.append_left _ h
  exact (h1.trans h2).trans (List.filter_append_perm fixed l)

theorem refill_filter (fixed p : InstId → Bool) (l ms : List InstId)
    (hl : ∀ x ∈ l, fixed x = false → p x = false) (hm : ∀ m ∈ ms, p m = false) :
    (refill fixed l ms).filter p = l.filter p := by
  induction l generalizing ms with
  | nil => rfl
  | cons x xs ih =>
    have hxs : ∀ y ∈ xs, fixed y = false → p y = false :=
      fun y hy => hl y (List.mem_cons_of_mem _ hy)
    cases hx : fixed x
    · have hpx : p x = false := hl x (List.mem_cons_self _ _) hx
      cases ms with
      | nil =>
        simp only [refill, hx, Bool.false_eq_true, if_false, List.filter_cons, hpx]
        exact ih [] hxs (by simp)
      | cons m ms1 =>
        have hpm : p m = false := hm m (List.mem_cons_self _ _)
        simp only [refill, hx, Bool.false_eq_true, if_false, List.filter_cons, hpx, hpm]
        exact ih ms1 hxs (fun y hy => hm y (List.mem_cons_of_mem _ hy))
    · simp only [refill, hx, if_true, List.filter_cons]
      rw [ih ms hxs hm]

theorem refill_getElem_fixed (fixed : InstId → Bool) (l ms : List InstId) (n : Nat)
    (x : InstId) (hx : l[n]? = some x) (hf : fixed x = true) :
    (refill fixed l ms)[n]? = some x := by
  induction l generalizing ms n with
  | nil => simp at hx
  | cons y ys ih =>
    cases n with
    | zero =>
      have : y = x := by simpa using hx
      subst this
      simp [refill, hf]
    | succ n =>
      have hx1 : ys[n]? = some x := by simpa using hx
      cases hy : fixed y
      · cases ms with
        | nil => simpa [refill, hy] using ih [] n hx1
        | cons m ms1 => simpa [refill, hy] using ih ms1 n hx1
      · simpa [refill, hy] using ih ms n hx1

theorem sortByRank_perm (order l : List InstId) : (sortByRank order l).Perm l :=
  List.perm_insertionSort _ l

theorem frame_reorderInstructions (outs order : List InstId) (f : Function) :
    Frame f (reorderInstructions outs order f) := by
  refine ⟨rfl, rfl, ?_, ?_, ?_⟩
  · intro id i j hi hj
    simp only [reorderInstructions] at hj
    rw [hi] at hj
    cases hj
    exact instFrame_refl i
  · simp [reorderInstructions]
  · intro k b c hb hc
    simp only [reorderInstructions, List.getElem?_map, hb, Option.map_some'] at hc
    cases hc
    exact refill_perm _ _ _ (sortByRank_perm _ _)

theorem frame_reorderOperands (C : IRCanonicalizer) (f : Function) :
    Frame f (reorderOperands C f) := by
  refine ⟨rfl, ?_, ?_, rfl, ?_⟩
  · simp [reorderOperands]
  · intro id i j hi hj
    simp only [reorderOperands, List.getElem?_map, hi, Option.map_some'] at hj
    cases hj
    unfold canonicalizeOperands
    by_cases hm : i.opcode.isMerge = true
    · simp only [hm, if_true]
      exact ⟨rfl, rfl, rfl, List.Perm.refl _, List.perm_insertionSort _ _, fun _ => rfl,
        fun h => by rw [hm] at h; cases h⟩
    · by_cases hc : (C.ReorderOperands && i.opcode.isCommutative) = true
      · simp only [hm, hc, if_true, if_false]
        refine ⟨rfl, rfl, rfl, List.perm_insertionSort _ _, List.Perm.refl _, ?_, fun _ => rfl⟩
        intro h
        rw [h] at hc
        simp at hc
      · simp only [hm, hc, if_false]
        exact instFrame_refl i
  · intro k b c hb hc
    simp only [reorderOperands] at hc
    rw [hb] at hc
    cases hc
    exact List.Perm.refl _

theorem frame_namingPhase (S : Scheme) (C : IRCanonicalizer) (f : Function) :
    Frame f (namingPhase S C f) :=
  frame_trans (frame_trans (frame_nameFunctionArguments f) (frame_nameBasicBlocks S _))
    (frame_nameInstructions S C _ _ _)

theorem frame_positionPhase (S : Scheme) (C : IRCanonicalizer) (f : Function) :
    Frame f (positionPhase S C f) := by
  unfold positionPhase
  split
  · exact frame_namingPhase S C f
  · exact frame_trans (frame_namingPhase S C f) (frame_reorderInstructions _ _ _)

theorem frame_runOnFunction (S : Scheme) (C : IRCanonicalizer) (f : Function) :
    Frame f (runOnFunction S C f).1 := by
  rw [runOnFunction_fst]
  exact frame_trans (frame_positionPhase S C f) (frame_reorderOperands C _)

theorem contains_eq_of_perm {α : Type} [DecidableEq α] {l m : List α} (h : l.Perm m) (a : α) :
    l.contains a = m.contains a := by
  rw [Bool.eq_iff_iff]
  simp only [List.contains, List.elem_eq_mem, decide_eq_true_eq]
  exact h.mem_iff

theorem forall₂_insts_of_blocks {bs cs : List Block}
    (h : List.Forall₂ (fun b c : Block => c.insts.Perm b.insts) bs cs) :
    List.Forall₂ (fun l m : List InstId => l.Perm m) (cs.map Block.insts)
      (bs.map Block.insts) := by
  induction h with
  | nil => exact List.Forall₂.nil
  | cons hbc _ ih => exact List.Forall₂.cons hbc ih

/-! ### What follows from the frame -/

theorem Frame.getElem?_insts {f g : Function} (h : Frame f g) (id : InstId) :
    (f.insts[id]? = none ∧ g.insts[id]? = none) ∨
      ∃ i j, f.insts[id]? = some i ∧ g.insts[id]? = some j ∧ InstFrame i j := by
  obtain ⟨_, hlen, hin, _, _⟩ := h
  cases hi : f.insts[id]? with
  | none =>
    left
    refine ⟨rfl, ?_⟩
    rw [List.getElem?_eq_none_iff] at hi ⊢
    omega
  | some i =>
    right
    obtain ⟨j, hj⟩ := getElem?_some_of_length_eq hlen hi
    exact ⟨i, j, rfl, hj, hin id i j hi hj⟩

theorem InstFrame.uses_perm {i j : Inst} (h : InstFrame i j) : j.uses.Perm i.uses := by
  obtain ⟨h1, _, _, h4, h5, _, _⟩ := h
  unfold Inst.uses
  rw [h1]
  split
  · exact h5.map _
  · exact h4

theorem Frame.usesInst_eq {f g : Function} (h : Frame f g) (u id : InstId) :
    usesInst g u id = usesInst f u id := by
  unfold usesInst
  rcases h.getElem?_insts u with ⟨h1, h2⟩ | ⟨i, j, h1, h2, h3⟩
  · rw [h1, h2]
  · rw [h1, h2]
    exact contains_eq_of_perm h3.uses_perm _

theorem Frame.blocks_forall₂ {f g : Function} (h : Frame f g) :
    List.Forall₂ (fun b c : Block => c.insts.Perm b.insts) f.blocks g.blocks := by
  obtain ⟨_, _, _, hlen, hb⟩ := h
  apply List.forall₂_of_length_eq_of_get hlen.symm
  intro k h1 h2
  apply hb k
  · simp [List.getElem?_eq_getElem h1]
  · simp [List.getElem?_eq_getElem h2]

theorem Frame.instIds_perm {f g : Function} (h : Frame f g) : (instIds g).Perm (instIds f) := by
  unfold instIds
  exact List.Perm.flatten_congr (forall₂_insts_of_blocks h.blocks_forall₂)

theorem Frame.consumers_eq {f g : Function} (h : Frame f g) (id : InstId) :
    consumers g id = consumers f id := by
  unfold consumers
  rw [h.2.1]
  apply List.filter_congr
  intro u _
  rw [h.usesInst_eq u id, contains_eq_of_perm h.instIds_perm u]

theorem Frame.isOutput_eq {f g : Function} (h : Frame f g) (id : InstId) :
    isOutput g id = isOutput f id := by
  unfold isOutput
  rcases h.getElem?_insts id with ⟨h1, h2⟩ | ⟨i, j, h1, h2, h3⟩
  · rw [h1, h2]
  · rw [h1, h2]
    simp only [h.consumers_eq id, h3.2.1]

theorem Frame.isMergeInst_eq {f g : Function} (h : Frame f g) (id : InstId) :
    isMergeInst g id = isMergeInst f id := by
  unfold isMergeInst
  rcases h.getElem?_insts id with ⟨h1, h2⟩ | ⟨i, j, h1, h2, h3⟩
  · rw [h1, h2]
  · rw [h1, h2]
    simp only [h3.1]

theorem Frame.targets_perm {f g : Function} (h : Frame f g) (id : InstId) :
    (targets g id).Perm (targets f id) := by
  unfold targets
  rcases h.getElem?_insts id with ⟨h1, h2⟩ | ⟨i, j, h1, h2, h3⟩
  · rw [h1, h2]
  · rw [h1, h2]
    exact h3.2.2.2.1.filterMap _

theorem successors_eq_aux {f g : Function} (h : Frame f g) {bs cs : List Block}
    (hb : List.Forall₂ (fun b c : Block => c.insts.Perm b.insts) bs cs) :
    cs.map (fun b => (b.insts.flatMap (targets g)).toFinset) =
      bs.map (fun b => (b.insts.flatMap (targets f)).toFinset) := by
  induction hb with
  | nil => rfl
  | cons hbc _ ih =>
    simp only [List.map_cons, ih]
    congr 1
    apply List.toFinset_eq_of_perm
    exact (List.Perm.flatMap_right _ hbc).trans
      (List.Perm.flatMap_left _ (fun a _ => h.targets_perm a))

theorem Frame.successors_eq {f g : Function} (h : Frame f g) :
    successors g = successors f :=
  successors_eq_aux h h.blocks_forall₂

theorem Frame.typeOf_eq {f g : Function} (h : Frame f g) (v : ValueRef) :
    typeOf g v = typeOf f v := by
  cases v with
  | const t ty => rfl
  | arg k =>
    have h1 := congrArg (fun l => l[k]?) h.1
    simpa [typeOf] using h1
  | inst id =>
    simp only [typeOf]
    rcases h.getElem?_insts id with ⟨h1, h2⟩ | ⟨i, j, h1, h2, h3⟩
    · rw [h1, h2]
    · rw [h1, h2]
      simp only [Option.some_bind, h3.2.2.1]
  | block b => rfl

/-! ### The instructions of the blocks after each phase -/

theorem namingPhase_block_insts (S : Scheme) (C : IRCanonicalizer) (f : Function) :
    (namingPhase S C f).blocks.map Block.insts = f.blocks.map Block.insts := by
  simp only [namingPhase, nameInstructions, nameBasicBlocks, nameFunctionArguments]
  apply List.ext_getElem?
  intro k
  simp only [List.getElem?_map, List.getElem?_mapIdx]
  cases f.blocks[k]? with
  | none => rfl
  | some b =>
    simp only [Option.map_some']
    split <;> rfl

/-- The instruction list of a block after the repositioning phase. -/
theorem positionPhase_block_insts (S : Scheme) (C : IRCanonicalizer) (f : Function) :
    (positionPhase S C f).blocks.map Block.insts =
      (f.blocks.map Block.insts).map (fun l =>
        if C.PreserveOrder = true then l
        else refill (isFixed (namingPhase S C f) (collectOutputInstructions f)
              (namingOrder S f (collectOutputInstructions f))) l
            (sortByRank (namingOrder S f (collectOutputInstructions f))
              (l.filter (fun id => !isFixed (namingPhase S C f) (collectOutputInstructions f)
                (namingOrder S f (collectOutputInstructions f)) id)))) := by
  unfold positionPhase
  by_cases hp : C.PreserveOrder = true
  · simp [hp, namingPhase_block_insts]
  · rw [← namingPhase_block_insts S C f]
    simp only [hp, if_false, reorderInstructions, List.map_map, Bool.false_eq_true]
    rfl

theorem runOnFunction_block_insts (S : Scheme) (C : IRCanonicalizer) (f : Function) :
    (runOnFunction S C f).1.blocks.map Block.insts =
      (positionPhase S C f).blocks.map Block.insts := by
  rw [runOnFunction_fst]
  rfl

theorem mem_instIds_of_mem {f : Function} {l : List InstId} {x : InstId}
    (hl : l ∈ f.blocks.map Block.insts) (hx : x ∈ l) : x ∈ instIds f := by
  unfold instIds
  exact List.mem_flatten.2 ⟨l, hl, hx⟩

/-- An instruction of a block that is not fixed is not an output. -/
theorem not_output_of_not_fixed {f g : Function} {order : List InstId} {x : InstId}
    (hx : x ∈ instIds f)
    (hfx : isFixed g (collectOutputInstructions f) order x = false) :
    isOutput f x = false := by
  unfold isFixed at hfx
  simp only [Bool.or_eq_false_iff] at hfx
  have h1 := hfx.1.1
  by_contra hne
  have ho : isOutput f x = true := by simpa using hne
  have : x ∈ collectOutputInstructions f := by
    unfold collectOutputInstructions
    exact List.mem_filter.2 ⟨hx, ho⟩
  have h2 : (collectOutputInstructions f).contains x = true := by
    simpa using this
  rw [h1] at h2
  cases h2

/-- Filtering the outputs out of the blocks gives the same list before and
after the repositioning phase. -/
theorem filter_isOutput_positionPhase (S : Scheme) (C : IRCanonicalizer) (f : Function) :
    (((positionPhase S C f).blocks.map Block.insts).flatten).filter (isOutput f) =
      (instIds f).filter (isOutput f) := by
  unfold instIds
  rw [positionPhase_block_insts, List.filter_flatten, List.filter_flatten, List.map_map]
  congr 1
  apply List.map_congr_left
  intro l hl
  simp only [Function.comp_apply]
  split
  · rfl
  · apply refill_filter
    · intro x hx hfx
      exact not_output_of_not_fixed (mem_instIds_of_mem hl hx) hfx
    · intro m hm
      have hm1 := (sortByRank_perm _ _).mem_iff.1 hm
      obtain ⟨hml, hmf⟩ := List.mem_filter.1 hm1
      exact not_output_of_not_fixed (mem_instIds_of_mem hl hml) (by simpa using hmf)

/-- C5: for every function and every option combination, the sequence of
output instructions (block order, then in-block order, as
`collectOutputInstructions` returns them) is the same before and after
`runOnFunction`. -/
theorem collectOutputInstructions_runOnFunction (S : Scheme) (C : IRCanonicalizer)
    (f : Function) :
    collectOutputInstructions (runOnFunction S C f).1 = collectOutputInstructions f := by
  have hF := frame_runOnFunction S C f
  have hout : isOutput (runOnFunction S C f).1 = isOutput f := funext hF.isOutput_eq
  unfold collectOutputInstructions
  rw [hout]
  show (((runOnFunction S C f).1.blocks.map Block.insts).flatten).filter (isOutput f) = _
  rw [runOnFunction_block_insts]
  exact filter_isOutput_positionPhase S C f

theorem runOnFunction_block_get (S : Scheme) (C : IRCanonicalizer) (f : Function)
    (k : BlockId) (b c : Block) (hb : f.blocks[k]? = some b)
    (hc : (runOnFunction S C f).1.blocks[k]? = some c) :
    c.insts =
      if C.PreserveOrder = true then b.insts
      else refill (isFixed (namingPhase S C f) (collectOutputInstructions f)
            (namingOrder S f (collectOutputInstructions f))) b.insts
          (sortByRank (namingOrder S f (collectOutputInstructions f))
            (b.insts.filter (fun id => !isFixed (namingPhase S C f)
              (collectOutputInstructions f) (namingOrder S f (collectOutputInstructions f)) id))) := by
  have h := congrArg (fun l => l[k]?) ((runOnFunction_block_insts S C f).trans
    (positionPhase_block_insts S C f))
  simp only [List.getElem?_map, hb, hc, Option.map_some'] at h
  exact Option.some.inj h

/-- C1: for every function and every combination of the four flags,
`runOnFunction` leaves unchanged the opcode, the operand set, the operand types
and the control-flow edges of every instruction; outputs and merge
instructions keep their in-block position, and the operand order changes only
in commutative and merge instructions. -/
theorem runOnFunction_preserves_semantics (S : Scheme) (C : IRCanonicalizer) (f : Function) :
    SemanticsPreserved f (runOnFunction S C f).1 := by
  have hF := frame_runOnFunction S C f
  refine ⟨hF, hF.typeOf_eq, hF.successors_eq, ?_⟩
  intro k b c n id hb hc hn hfix
  rw [runOnFunction_block_get S C f k b c hb hc]
  split
  · exact hn
  · apply refill_getElem_fixed _ _ _ _ _ hn
    have hmem : id ∈ instIds f := by
      apply mem_instIds_of_mem (l := b.insts)
      · exact List.mem_map.2 ⟨b, List.getElem?_mem hb, rfl⟩
      · exact List.getElem?_mem hn
    unfold isFixed
    rcases hfix with ho | hm
    · have : id ∈ collectOutputInstructions f := by
        unfold collectOutputInstructions
        exact List.mem_filter.2 ⟨hmem, ho⟩
      simp [this]
    · rw [(frame_namingPhase S C f).isMergeInst_eq id, hm]
      simp

/-! ### The arena and the arguments after each phase -/

theorem positionPhase_insts (S : Scheme) (C : IRCanonicalizer) (f : Function) :
    (positionPhase S C f).insts = (namingPhase S C f).insts := by
  unfold positionPhase
  split <;> rfl

theorem positionPhase_args (S : Scheme) (C : IRCanonicalizer) (f : Function) :
    (positionPhase S C f).args = (namingPhase S C f).args := by
  unfold positionPhase
  split <;> rfl

theorem runOnFunction_args (S : Scheme) (C : IRCanonicalizer) (f : Function) :
    (runOnFunction S C f).1.args =
      f.args.mapIdx (fun k a => { a with name := "arg" ++ toString (k + 1) }) := by
  rw [runOnFunction_fst]
  show (positionPhase S C f).args = _
  rw [positionPhase_args]
  rfl

theorem footprintWalk_congr {f g : Function} (h : consumers g = consumers f)
    (outs : List InstId) (fuel : Nat) (i : InstId) (s : List InstId × List Nat) :
    footprintWalk g outs fuel i s = footprintWalk f outs fuel i s := by
  induction fuel generalizing i s with
  | zero => rfl
  | succ n ih =>
    simp only [footprintWalk, h]
    split
    · rfl
    · congr 1
      funext st u
      exact ih u st

theorem Frame.canonicalName_eq {f g : Function} (h : Frame f g) (S : Scheme)
    (C : IRCanonicalizer) (outs order : List InstId) (id : InstId) (i : Inst) :
    canonicalName S C g outs order id i = canonicalName S C f outs order id i := by
  have hc : consumers g = consumers f := funext h.consumers_eq
  have hw : footprintWalk g outs = footprintWalk f outs := by
    funext fuel i s
    exact footprintWalk_congr hc outs fuel i s
  unfold canonicalName isFoldable getOutputFootprint
  rw [hc, hw, h.2.1]

/-- The instruction in slot `id` after `runOnFunction`. -/
theorem runOnFunction_inst_get (S : Scheme) (C : IRCanonicalizer) (f : Function)
    (id : InstId) :
    (runOnFunction S C f).1.insts[id]? =
      (f.insts[id]?).map (fun i =>
        canonicalizeOperands C (positionPhase S C f)
          (assignName S C f (collectOutputInstructions f)
            (namingOrder S f (collectOutputInstructions f)) id i)) := by
  have hfr : Frame f (nameBasicBlocks S (nameFunctionArguments f)) :=
    frame_trans (frame_nameFunctionArguments f) (frame_nameBasicBlocks S _)
  rw [runOnFunction_fst]
  simp only [reorderOperands, positionPhase_insts, List.getElem?_map]
  simp only [namingPhase, nameInstructions, List.getElem?_mapIdx]
  have hi2 : (nameBasicBlocks S (nameFunctionArguments f)).insts[id]? = f.insts[id]? := rfl
  rw [hi2]
  cases f.insts[id]? with
  | none => rfl
  | some i =>
    simp only [Option.map_some', assignName, hfr.canonicalName_eq]

theorem assignName_fields (S : Scheme) (C : IRCanonicalizer) (f : Function)
    (outs order : List InstId) (id : InstId) (i : Inst) :
    (assignName S C f outs order id i).opcode = i.opcode ∧
    (assignName S C f outs order id i).operands = i.operands ∧
    (assignName S C f outs order id i).incoming = i.incoming := by
  unfold assignName
  split <;> exact ⟨rfl, rfl, rfl⟩

theorem canonicalizeOperands_name (C : IRCanonicalizer) (f : Function) (i : Inst) :
    (canonicalizeOperands C f i).name = i.name := by
  unfold canonicalizeOperands
  split <;> [rfl; (split <;> rfl)]

/-- C6: when the canonicalizer is constructed with `ReorderOperands = false`,
every commutative instruction has the same operand list after `runOnFunction`
as before; when it is constructed with `PreserveOrder = true`, every block
lists its instructions in the same order after `runOnFunction` as before,
while names are still assigned: the arguments are named `arg1, arg2, ...` and
every instruction reached by the naming walk, when renaming applies to it,
carries its canonical name. -/
theorem runOnFunction_flag_orthogonality (S : Scheme) (C : IRCanonicalizer) (f : Function) :
    (C.ReorderOperands = false →
      ∀ (id : InstId) (i j : Inst), f.insts[id]? = some i →
        (runOnFunction S C f).1.insts[id]? = some j →
        i.opcode.isCommutative = true → j.operands = i.operands) ∧
    (C.PreserveOrder = true →
      (runOnFunction S C f).1.blocks.map Block.insts = f.blocks.map Block.insts ∧
      (runOnFunction S C f).1.args.map Arg.name =
        (List.range f.args.length).map (fun k => "arg" ++ toString (k + 1)) ∧
      ∀ (id : InstId) (i j : Inst), f.insts[id]? = some i →
        (runOnFunction S C f).1.insts[id]? = some j →
        id ∈ namingOrder S f (collectOutputInstructions f) →
        (C.RenameAll = true ∨ S.generated i.name = true) →
        j.name = canonicalName S C f (collectOutputInstructions f)
          (namingOrder S f (collectOutputInstructions f)) id i) := by
  constructor
  · intro hro id i j hi hj hcomm
    rw [runOnFunction_inst_get, hi] at hj
    simp only [Option.map_some', Option.some.injEq] at hj
    obtain ⟨h1, h2, _⟩ := assignName_fields S C f (collectOutputInstructions f)
      (namingOrder S f (collectOutputInstructions f)) id i
    have hnm : i.opcode.isMerge = false := by
      cases hop : i.opcode <;> simp_all [Opcode.isCommutative, Opcode.isMerge]
    rw [← hj]
    unfold canonicalizeOperands
    rw [h1, hnm, hro]
    simpa using h2
  · intro hpo
    refine ⟨?_, ?_, ?_⟩
    · rw [runOnFunction_block_insts, positionPhase_block_insts]
      simp [hpo]
    · rw [runOnFunction_args]
      apply List.ext_getElem?
      intro k
      simp only [List.getElem?_map, List.getElem?_mapIdx, List.getElem?_range']
      by_cases hk : k < f.args.length
      · simp [List.getElem?_eq_getElem hk, List.getElem?_range hk]
      · have hk2 : f.args.length ≤ k := Nat.le_of_not_lt hk
        rw [List.getElem?_eq_none hk2, List.getElem?_eq_none (by simpa using hk2)]
        rfl
    · intro id i j hi hj hmem hren
      rw [runOnFunction_inst_get, hi] at hj
      simp only [Option.map_some', Option.some.injEq] at hj
      rw [← hj, canonicalizeOperands_name]
      unfold assignName
      have hc : (namingOrder S f (collectOutputInstructions f)).contains id = true := by
        simpa using hmem
      have hr : (C.RenameAll || S.generated i.name) = true := by
        rcases hren with h | h <;> simp [h]
      simp only [hc, hr, Bool.and_self, if_true]

/-- Witness of C6: on the example function with preserve-order and rename-all
on, the block keeps its instruction order and `c = add p, q` keeps its
operand list. -/
theorem runOnFunction_flag_orthogonality_witness :
    (∀ (id : InstId) (i j : Inst), sampleFunction.insts[id]? = some i →
        (runOnFunction sampleScheme preserveAndRename sampleFunction).1.insts[id]? = some j →
        i.opcode.isCommutative = true → j.operands = i.operands) ∧
    (runOnFunction sampleScheme preserveAndRename sampleFunction).1.blocks.map Block.insts =
      [[0, 1, 2, 3, 4]] :=
  ⟨(runOnFunction_flag_orthogonality sampleScheme preserveAndRename sampleFunction).1 rfl,
   ((runOnFunction_flag_orthogonality sampleScheme preserveAndRename sampleFunction).2 rfl).1⟩

/-! ### The depth bound of the walks is never reached -/

theorem unvisited_mono (n : Nat) {v w : List InstId} (h : ∀ x, x ∈ v → x ∈ w) :
    unvisited n w ≤ unvisited n v := by
  unfold unvisited
  apply List.Sublist.length_le
  apply List.monotone_filter_right
  intro x hx
  have hw : x ∉ w := by simpa using hx
  have hv : x ∉ v := fun hxv => hw (h x hxv)
  simpa using hv

theorem unvisited_cons_lt (n : Nat) {v : List InstId} {i : InstId} (hi : i < n)
    (hv : v.contains i = false) : unvisited n (i :: v) < unvisited n v := by
  unfold unvisited
  have hsplit : (List.range n).filter (fun x => !(i :: v).contains x) =
      ((List.range n).filter (fun x => !v.contains x)).filter (fun x => !(x == i)) := by
    rw [List.filter_filter]
    apply List.filter_congr
    intro x _
    simp only [List.contains_cons]
    cases (x == i) <;> cases v.contains x <;> rfl
  rw [hsplit]
  apply List.length_filter_lt_length_iff_exists.2
  refine ⟨i, ?_, by simp⟩
  apply List.mem_filter.2
  exact ⟨List.mem_range.2 hi, by simp only [hv, Bool.not_false]⟩

theorem nameInstruction_visited_mono (dep : InstId → List InstId) (fuel : Nat) (i : InstId)
    (s : WalkState) : ∀ x, x ∈ s.visited → x ∈ (nameInstruction dep fuel i s).visited := by
  induction fuel generalizing i s with
  | zero => intro x hx; exact hx
  | succ a ih =>
    intro x hx
    unfold nameInstruction
    split
    · exact hx
    · have key : ∀ (l : List InstId) (st : WalkState), x ∈ st.visited →
          x ∈ (l.foldl (fun st d => nameInstruction dep a d st) st).visited := by
        intro l
        induction l with
        | nil => intro st h; exact h
        | cons d ds ihl =>
          intro st h
          exact ihl _ (ih d st x h)
      exact key _ _ (List.mem_cons_of_mem _ hx)

/-- Two depth bounds above the number of unvisited instructions give the same
walk. -/
theorem nameInstruction_fuel (dep : InstId → List InstId) (n : Nat)
    (hdep : ∀ j d, d ∈ dep j → d < n) (a b : Nat) (i : InstId) (s : WalkState) (hi : i < n)
    (ha : unvisited n s.visited < a) (hb : unvisited n s.visited < b) :
    nameInstruction dep a i s = nameInstruction dep b i s := by
  induction a generalizing b i s with
  | zero => omega
  | succ a ih =>
    cases b with
    | zero => omega
    | succ b =>
      unfold nameInstruction
      cases hv : s.visited.contains i
      · simp only [Bool.false_eq_true, if_false]
        have hlt := unvisited_cons_lt n hi hv
        have key : ∀ (l : List InstId) (st : WalkState), (∀ d ∈ l, d < n) →
            unvisited n st.visited < a → unvisited n st.visited < b →
            l.foldl (fun st d => nameInstruction dep a d st) st =
              l.foldl (fun st d => nameInstruction dep b d st) st := by
          intro l
          induction l with
          | nil => intro st _ _ _; rfl
          | cons d ds ihl =>
            intro st hl h1 h2
            have hd : d < n := hl d (List.mem_cons_self _ _)
            simp only [List.foldl_cons]
            rw [← ih b d st hd h1 h2]
            have hm := unvisited_mono n (nameInstruction_visited_mono dep a d st)
            exact ihl _ (fun x hx => hl x (List.mem_cons_of_mem _ hx)) (by omega) (by omega)
        rw [key (dep i) _ (hdep i) (by simp only; omega) (by simp only; omega)]
      · simp only [if_true]

theorem deps_lt (f : Function) (j d : InstId) (h : d ∈ deps f j) : d < f.insts.length := by
  unfold deps at h
  cases hj : f.insts[j]? with
  | none => simp [hj] at h
  | some i =>
    simp only [hj, List.mem_filterMap] at h
    obtain ⟨v, _, hv⟩ := h
    cases v with
    | inst e =>
      simp only at hv
      split at hv
      · cases hv; assumption
      · cases hv
    | const t ty => cases hv
    | arg k => cases hv
    | block t => cases hv

theorem lt_of_mem_collectOutputInstructions (f : Function) (o : InstId)
    (h : o ∈ collectOutputInstructions f) : o < f.insts.length := by
  unfold collectOutputInstructions at h
  have ho := (List.mem_filter.1 h).2
  unfold isOutput at ho
  by_contra hn
  rw [List.getElem?_eq_none (Nat.le_of_not_lt hn)] at ho
  cases ho

theorem walkDeps_lt (S : Scheme) (f : Function) (outs : List InstId) (j d : InstId)
    (h : d ∈ walkDeps S f outs j) : d < f.insts.length := by
  unfold walkDeps at h
  split at h
  · exact deps_lt f j d (by simpa [List.mem_insertionSort] using h)
  · exact deps_lt f j d h

/-- The naming walk never runs into its depth bound: a larger bound gives the
same naming order. -/
theorem namingOrder_fuel (S : Scheme) (f : Function) (k : Nat) :
    ((collectOutputInstructions f).foldl
      (fun st o => nameInstruction (walkDeps S f (collectOutputInstructions f))
        (f.insts.length + 1 + k) o st)
      (WalkState.mk [] [])).order = namingOrder S f (collectOutputInstructions f) := by
  unfold namingOrder
  have key : ∀ (l : List InstId) (st : WalkState), (∀ o ∈ l, o < f.insts.length) →
      l.foldl (fun st o => nameInstruction (walkDeps S f (collectOutputInstructions f))
          (f.insts.length + 1 + k) o st) st =
        l.foldl (fun st o => nameInstruction (walkDeps S f (collectOutputInstructions f))
          (f.insts.length + 1) o st) st := by
    intro l
    induction l with
    | nil => intro st _; rfl
    | cons o os ihl =>
      intro st hl
      have hu : unvisited f.insts.length st.visited ≤ f.insts.length := by
        unfold unvisited
        exact (List.length_filter_le _ _).trans (by simp)
      simp only [List.foldl_cons]
      rw [nameInstruction_fuel (walkDeps S f (collectOutputInstructions f)) f.insts.length
        (walkDeps_lt S f _) (f.insts.length + 1 + k)
        (f.insts.length + 1) o st (hl o (List.mem_cons_self _ _)) (by omega) (by omega)]
      exact ihl _ (fun x hx => hl x (List.mem_cons_of_mem _ hx))
  rw [key _ _ (lt_of_mem_collectOutputInstructions f)]

theorem footprintWalk_visited_mono (f : Function) (outs : List InstId) (fuel : Nat)
    (i : InstId) (s : List InstId × List Nat) :
    ∀ x, x ∈ s.1 → x ∈ (footprintWalk f outs fuel i s).1 := by
  induction fuel generalizing i s with
  | zero => intro x hx; exact hx
  | succ a ih =>
    intro x hx
    unfold footprintWalk
    split
    · exact hx
    · have key : ∀ (l : List InstId) (st : List InstId × List Nat), x ∈ st.1 →
          x ∈ (l.foldl (fun st u => footprintWalk f outs a u st) st).1 := by
        intro l
        induction l with
        | nil => intro st h; exact h
        | cons d ds ihl =>
          intro st h
          exact ihl _ (ih d st x h)
      exact key _ _ (List.mem_cons_of_mem _ hx)

theorem consumers_lt (f : Function) (j u : InstId) (h : u ∈ consumers f j) :
    u < f.insts.length := by
  unfold consumers at h
  exact List.mem_range.1 (List.mem_filter.1 h).1

/-- Two depth bounds above the number of unvisited instructions give the same
footprint walk. -/
theorem footprintWalk_fuel (f : Function) (outs : List InstId) (a b : Nat) (i : InstId)
    (s : List InstId × List Nat) (hi : i < f.insts.length)
    (ha : unvisited f.insts.length s.1 < a) (hb : unvisited f.insts.length s.1 < b) :
    footprintWalk f outs a i s = footprintWalk f outs b i s := by
  induction a generalizing b i s with
  | zero => omega
  | succ a ih =>
    cases b with
    | zero => omega
    | succ b =>
      unfold footprintWalk
      cases hv : s.1.contains i
      · simp only [Bool.false_eq_true, if_false]
        have hlt := unvisited_cons_lt f.insts.length hi hv
        have key : ∀ (l : List InstId) (st : List InstId × List Nat),
            (∀ d ∈ l, d < f.insts.length) →
            unvisited f.insts.length st.1 < a → unvisited f.insts.length st.1 < b →
            l.foldl (fun st u => footprintWalk f outs a u st) st =
              l.foldl (fun st u => footprintWalk f outs b u st) st := by
          intro l
          induction l with
          | nil => intro st _ _ _; rfl
          | cons d ds ihl =>
            intro st hl h1 h2
            have hd : d < f.insts.length := hl d (List.mem_cons_self _ _)
            simp only [List.foldl_cons]
            rw [← ih b d st hd h1 h2]
            have hm := unvisited_mono f.insts.length (footprintWalk_visited_mono f outs a d st)
            exact ihl _ (fun x hx => hl x (List.mem_cons_of_mem _ hx)) (by omega) (by omega)
        rw [key (consumers f i) _ (consumers_lt f i) (by simp only; omega) (by simp only; omega)]
      · simp only [if_true]

/-- The footprint walk never runs into its depth bound: a larger bound gives
the same footprint. -/
theorem getOutputFootprint_fuel (f : Function) (outs : List InstId) (id : InstId) (k : Nat) :
    ((consumers f id).foldl
      (fun st u => footprintWalk f outs (f.insts.length + 1 + k) u st) ([], [])).2 =
      getOutputFootprint f outs id := by
  unfold getOutputFootprint
  have key : ∀ (l : List InstId) (st : List InstId × List Nat),
      (∀ o ∈ l, o < f.insts.length) →
      l.foldl (fun st u => footprintWalk f outs (f.insts.length + 1 + k) u st) st =
        l.foldl (fun st u => footprintWalk f outs (f.insts.length + 1) u st) st := by
    intro l
    induction l with
    | nil => intro st _; rfl
    | cons o os ihl =>
      intro st hl
      have hu : unvisited f.insts.length st.1 ≤ f.insts.length := by
        unfold unvisited
        exact (List.length_filter_le _ _).trans (by simp)
      simp only [List.foldl_cons]
      rw [footprintWalk_fuel f outs (f.insts.length + 1 + k) (f.insts.length + 1) o st
        (hl o (List.mem_cons_self _ _)) (by omega) (by omega)]
      exact ihl _ (fun x hx => hl x (List.mem_cons_of_mem _ hx))
  rw [key _ _ (consumers_lt f id)]

/-! ### The orders used by the walk and by operand sorting -/

theorem inst_eta_name (j : Inst) :
    ({ j with name := j.name } : Inst) = j := by
  cases j
  rfl

theorem block_eta_name (c : Block) : ({ c with name := c.name } : Block) = c := by
  cases c
  rfl

theorem block_eta_insts (c : Block) : ({ c with insts := c.insts } : Block) = c := by
  cases c
  rfl

/-- With reorder-operands on, `a = add x, y` and `b = add y, x` end with the
same operand order, and the arguments are named `arg1`, `arg2`. -/
theorem twoAdds_same_operand_order :
    (runOnFunction sampleScheme renameAndReorder twoAddsFunction).1.insts.map Inst.operands =
      [[ValueRef.arg 0, ValueRef.arg 1], [ValueRef.arg 0, ValueRef.arg 1],
        [ValueRef.inst 1]] ∧
    (runOnFunction sampleScheme renameAndReorder twoAddsFunction).1.args.map Arg.name =
      ["arg1", "arg2"] := by
  constructor <;> decide

/-- The incoming pairs `(B, v1), (A, v2)` of the merge instruction become
`(A, v2), (B, v1)` once the blocks are named, with every flag off. -/
theorem merge_incoming_sorted :
    ((runOnFunction sampleScheme noFlags mergeFunction).1.insts[5]?).map Inst.incoming =
      some [(1, ValueRef.inst 1), (2, ValueRef.inst 3)] ∧
    (runOnFunction sampleScheme noFlags mergeFunction).1.blocks.map Block.name =
      ["bb1", "bb2", "bb3", "bb4"] := by
  constructor <;> decide

/-- The outputs of the loop example are the two branches and the return,
before and after canonicalization. -/
theorem loop_outputs :
    collectOutputInstructions loopFunction = [0, 4, 5] ∧
    collectOutputInstructions (runOnFunction sampleScheme renameAndReorder loopFunction).1 =
      [0, 4, 5] := by
  constructor <;> decide

/-- The walk from `ret c` takes the operands of the commutative `c = add p, q`
in tie-break order: `p` and `q` have the same footprint and `q` has the smaller
hash, so `q` is named first; the names are `q = v1, r = v2, p = v3, c = v4`,
the operands of `c` are sorted into `q, p`, and the block is `q, r, p, c, ret`.
The walk order is the same on the function after the pass, where `c` reads
`add q, p`. -/
theorem sample_walk_order :
    namingOrder sampleScheme sampleFunction (collectOutputInstructions sampleFunction) =
      [1, 0, 2, 3, 4] ∧
    (runOnFunction sampleScheme renameAndReorder sampleFunction).1.insts.map Inst.name =
      ["v2", "v1", "v3", "v4", "v5"] ∧
    (runOnFunction sampleScheme renameAndReorder sampleFunction).1.blocks.map Block.insts =
      [[1, 0, 2, 3, 4]] ∧
    ((runOnFunction sampleScheme renameAndReorder sampleFunction).1.insts[3]?).map
      Inst.operands = some [ValueRef.inst 1, ValueRef.inst 2] ∧
    namingOrder sampleScheme (runOnFunction sampleScheme renameAndReorder sampleFunction).1
      (collectOutputInstructions sampleFunction) = [1, 0, 2, 3, 4] := by
  refine ⟨?_, ?_, ?_, ?_, ?_⟩ <;> decide

end LLVMCanon
